import Mathlib

/-!
Shallow embedding of the nifpga packed-bitfield type system and codec.

Sources embedded here:
* `src/nifpga/bitfile.py` — the type-descriptor builder (`_parse_type`,
  `_Numeric.__init__`, `_FXP.__init__`, `_Cluster.__init__`) and the
  pack/unpack codec of every type class (`_Bool`, `_Numeric`, `_Float`,
  `_String`, `_Cluster`, `_Array`, `_FXP`).
* `src/nifpga/session.py` — `_DataConvertingRegister`'s u32-word transport
  framing (`_convert_to_u32_array`, `_combine_array_of_u32_into_one_value`).

Modelling conventions:
* Python integers are unbounded and use two's-complement semantics for the
  bitwise operators; they are embedded as `Int`, with the specific bitwise
  expressions the source uses (`d & ((1 <<< n) - 1)`, `d & (1 <<< b) > 0`,
  `d ^^^ ((1 <<< n) - 1)`) given arithmetic definitions below that agree with
  Python on all integers.  Lean's `Int` `/` and `%` are Euclidean division
  and remainder, which on the positive powers of two used here coincide with
  Python's floor division `>>` and nonnegative `%`.
* `decimal.Decimal` values are embedded as `ℚ`.  The tests run the codec
  with a context precision large enough that every operation the codec
  performs is exact, which is what `ℚ` models.  The one place native
  floating point enters is `_FXP._calculate_delta`, whose Python expression
  `2**(iwl - wl)` produces an IEEE binary64 float whenever the exponent is
  negative; that float is exact down to the smallest subnormal `2^(-1074)`
  and underflows to `0.0` below it, which `fxpDelta` reproduces.
* IEEE float registers (`SGL`/`DBL`) are represented by their bit patterns:
  the `ctypes` reinterpretations in `_Float.pack_data`/`unpack_data` are a
  bijection between float values and width-bit patterns, so a domain value
  is carried as the pattern itself and the codec's shifting and masking is
  embedded exactly.
* Exceptions (`Decimal` division by zero, `KeyError`/`IndexError` on
  mis-shaped cluster or array values, failed `assert isinstance`) make a
  pack fallible: `packData` returns `Option`, `none` meaning the Python
  call raises.  `unpack_data` never raises on integers and is total.
* Warnings raised through `warnings.warn` are collected in a list; the only
  warning the codec ever emits is `warn_coerced_data`'s coercion warning.
-/

set_option maxHeartbeats 1000000

namespace NiFpga

/-- Python `d & ((1 << n) - 1)` on an unbounded two's-complement integer:
keep the low `n` bits.  Equals `d % 2^n` for every `d : Int`. -/
def pyMaskLow (n : Nat) (d : Int) : Int := d % 2 ^ n

/-- Python `d & (1 << b) > 0` on an unbounded two's-complement integer:
test bit `b`.  Bit `b` of `d` is `(d / 2^b) % 2`. -/
def pyBitTest (d : Int) (b : Nat) : Bool := decide ((d / 2 ^ b) % 2 = 1)

/-- Python `d ^ ((1 << n) - 1)` on an unbounded two's-complement integer:
flip the low `n` bits and keep the rest.  Writing `d = (d - d % 2^n) + d % 2^n`,
flipping the low block replaces `d % 2^n` by `2^n - 1 - d % 2^n`. -/
def pyXorLowOnes (n : Nat) (d : Int) : Int := d - 2 * (d % 2 ^ n) + 2 ^ n - 1

/-- Python `int(x)` on an exact `Decimal`: truncation toward zero
(the ceiling of a negative value, written `-⌊-q⌋`). -/
def ratTrunc (q : ℚ) : Int := if 0 ≤ q then ⌊q⌋ else -⌊-q⌋

/-- The codec's only runtime warning: `_FXP.warn_coerced_data`
("The inputed value was not able to be converted to FXP, without coercion."). -/
inductive Warning : Type where
  | coerced
deriving DecidableEq

/-- The type-descriptor tree built by `_parse_type`: one constructor per
type class of bitfile.py (`_Bool`, `_Numeric`, `_Float`, `_String`, `_FXP`,
`_Cluster`, `_Array`).  Every node carries its `name`. -/
inductive TypeNode : Type where
  | bool (name : String)
  | numeric (name : String) (signed : Bool) (bits : Nat)
  | float (name : String) (width : Nat)
  | strType (name : String)
  | fxp (name : String) (signed : Bool) (overflowEnabled : Bool)
        (wordLength : Nat) (integerWordLength : Int)
  | cluster (name : String) (children : List TypeNode)
  | array (name : String) (size : Nat) (elem : TypeNode)

/-- The `name` property shared by all type classes (`_BaseType.name`). -/
def nodeName : TypeNode → String
  | .bool n => n
  | .numeric n _ _ => n
  | .float n _ => n
  | .strType n => n
  | .fxp n _ _ _ _ => n
  | .cluster n _ => n
  | .array n _ _ => n

/-- Domain values flowing through pack/unpack.  Mirrors the dynamic Python
values: bool, int, float (carried as its IEEE bit pattern, see the header),
str, a bare `Decimal` or an `(overflow, Decimal)` tuple for FXP, an
`OrderedDict` (association list in declaration order) for clusters, and a
list for arrays. -/
inductive Value : Type where
  | bool (b : Bool)
  | int (i : Int)
  | floatBits (bits : Int)
  | str (s : String)
  | fxpVal (q : ℚ)
  | fxpPair (overflow : Bool) (q : ℚ)
  | cluster (fields : List (String × Value))
  | array (elems : List Value)

/-- Embeds `_FXP._calculate_delta`: `Decimal(2**(iwl - wl))`.  For a
nonnegative exponent Python computes an exact integer; for a negative
exponent it computes an IEEE binary64 float, which represents `2^e` exactly
for `e ≥ -1074` (the smallest subnormal) and underflows to `0.0` below that;
`Decimal` conversion of either is exact. -/
def fxpDelta (wl : Nat) (iwl : Int) : ℚ :=
  if -1074 ≤ iwl - wl then (2 : ℚ) ^ (iwl - (wl : Int)) else 0

/-- Embeds `_FXP._calculate_minimum`: `-1 * (2**(wl - 1) * delta)` when
signed, else `0`.  (`wl ≥ 1` throughout: a signed FXP with `wl = 0` raises
in `_FXP.__init__` before these are ever used.) -/
def fxpMin (signed : Bool) (wl : Nat) (iwl : Int) : ℚ :=
  if signed then -1 * ((2 : ℚ) ^ (wl - 1) * fxpDelta wl iwl) else 0

/-- Embeds `_FXP._calculate_maximum`: `(2**magnitude_bits - 1) * delta` with
`magnitude_bits = wl - 1` when signed else `wl`. -/
def fxpMax (signed : Bool) (wl : Nat) (iwl : Int) : ℚ :=
  ((2 : ℚ) ^ (if signed then wl - 1 else wl) - 1) * fxpDelta wl iwl

/-- Embeds `_FXP._calculate_size_in_bits`: the word length plus one bit when
the overflow status is enabled. -/
def fxpSizeBits (wl : Nat) (overflowEnabled : Bool) : Nat :=
  wl + (if overflowEnabled then 1 else 0)

/-- Embeds `_FXP._integer_twos_comp` (the identical bit manipulation also
appears in `_Numeric._unpack_numeric_signed`): if the sign bit
`1 << (wl - 1)` is set, xor with the word mask, add one and negate. -/
def pyIntegerTwosComp (wl : Nat) (d : Int) : Int :=
  if pyBitTest d (wl - 1) then -(pyXorLowOnes wl d + 1) else d

/-- Embeds `_Numeric._unpack_numeric_signed`: mask to the data width, then
apply the two's-complement branch. -/
def unpackNumericSigned (bits : Nat) (d : Int) : Int :=
  pyIntegerTwosComp bits (pyMaskLow bits d)

/-- Embeds `_FXP.unpack_data`: mask to `size_in_bits`; when the overflow
status is enabled read bit `wl` (`_get_overflow_value`) and mask it off
(`_remove_overflow_bit`); two's-complement-decode when signed; scale by
delta; return the value or the `(overflow, value)` pair. -/
def unpackFxp (signed overflowEnabled : Bool) (wl : Nat) (iwl : Int) (d : Int) : Value :=
  let d1 := pyMaskLow (fxpSizeBits wl overflowEnabled) d
  let overflow := pyBitTest d1 wl
  let d2 := if overflowEnabled then pyMaskLow wl d1 else d1
  let d3 := if signed then pyIntegerTwosComp wl d2 else d2
  let q := (d3 : ℚ) * fxpDelta wl iwl
  if overflowEnabled then .fxpPair overflow q else .fxpVal q

/-- Embeds `_FXP._convert_value_to_fxp`: `Decimal(data) / Decimal(delta)`
(raises when `delta = 0`, hence `none`), truncate to an integer with
`int(...)`, and emit the coercion warning when truncation lost data. -/
def convertValueToFxp (delta : ℚ) (x : ℚ) : Option (Int × List Warning) :=
  if delta = 0 then none
  else
    let c := x / delta
    let r := ratTrunc c
    some (r, if (r : ℚ) = c then [] else [Warning.coerced])

/-- Embeds `_FXP._validate_and_parse_user_input`: with the overflow status
enabled a 2-tuple is unpacked as `(overflow, data)` and a bare number has
the overflow flag silently defaulted to `False` (the `TypeError` is eaten
with no warning); with it disabled the input itself must be a number, so a
tuple fails the `isinstance(data, Number)` assertion (`none`). -/
def validateFxpInput (overflowEnabled : Bool) (v : Value) : Option (Bool × ℚ) :=
  if overflowEnabled then
    match v with
    | .fxpPair b q => some (b, q)
    | .fxpVal q => some (false, q)
    | _ => none
  else
    match v with
    | .fxpVal q => some (false, q)
    | _ => none

/-- Embeds `_FXP.pack_data`: validate the input; clamp below the minimum to
the minimum and above the maximum to the maximum, each with a coercion
warning emitted after the conversion; convert to the fixed-point integer;
two's-complement-encode when signed and the original (pre-clamp) value is
negative; add `2**wl` when the overflow flag is set; shift into the
accumulated blob.  The resulting field is nonnegative and below
`2^size_in_bits`, so the source's `|` is addition here. -/
def packFxp (signed overflowEnabled : Bool) (wl : Nat) (iwl : Int)
    (v : Value) (acc : Int) : Option (Int × List Warning) :=
  match validateFxpInput overflowEnabled v with
  | none => none
  | some (ovFlag, q) =>
    let delta := fxpDelta wl iwl
    let conv : Option (Int × List Warning) :=
      if q < fxpMin signed wl iwl then
        (convertValueToFxp delta (fxpMin signed wl iwl)).map
          (fun p => (p.1, p.2 ++ [Warning.coerced]))
      else if fxpMax signed wl iwl < q then
        (convertValueToFxp delta (fxpMax signed wl iwl)).map
          (fun p => (p.1, p.2 ++ [Warning.coerced]))
      else convertValueToFxp delta q
    match conv with
    | none => none
    | some (r0, ws) =>
      let r1 := if signed = true ∧ q < 0 then pyIntegerTwosComp wl r0 else r0
      let r2 := if ovFlag then r1 + 2 ^ wl else r1
      some (acc * 2 ^ fxpSizeBits wl overflowEnabled + r2, ws)

mutual

/-- Embeds the `size_in_bits` property of every type class: `_Bool` is one
bit, `_Numeric`/`_Float` their width, `_String` zero, `_FXP` per
`_calculate_size_in_bits`, `_Cluster` the sum over its children and
`_Array` the element size times the length. -/
def sizeBits : TypeNode → Nat
  | .bool _ => 1
  | .numeric _ _ bits => bits
  | .float _ width => width
  | .strType _ => 0
  | .fxp _ _ ov wl _ => fxpSizeBits wl ov
  | .cluster _ children => sizeBitsList children
  | .array _ n sub => sizeBits sub * n

/-- Sum of `size_in_bits` over a cluster's children
(`sum(child.size_in_bits for child in self._children)`). -/
def sizeBitsList : List TypeNode → Nat
  | [] => 0
  | c :: cs => sizeBits c + sizeBitsList cs

end

mutual

/-- Embeds `unpack_data` of every type class.  `_Bool`: truthiness of
`data & 1`.  `_Numeric`: mask, two's-complement branch when signed.
`_Float`: mask to the width (the bit pattern is the value, see header).
`_String`: always the empty string.  `_FXP`: `unpackFxp`.  `_Cluster`:
`_unpack_data_recursive` walks `reversed(self._children)`, unpacking each
member from the low end and right-shifting, inserting into the ordered
dict on the way back up.  `_Array`: unpack `size` elements from the low
end, shifting by the element size, then reverse the results. -/
def unpackData : TypeNode → Int → Value
  | .bool _, d => .bool (decide (pyMaskLow 1 d = 1))
  | .numeric _ signed bits, d =>
      .int (if signed then unpackNumericSigned bits d else pyMaskLow bits d)
  | .float _ width, d => .floatBits (pyMaskLow width d)
  | .strType _, _ => .str ""
  | .fxp _ s ov wl iwl, d => unpackFxp s ov wl iwl d
  | .cluster _ children, d => .cluster (unpackClusterRev children.reverse d)
  | .array _ n sub, d => .array (unpackArrayLoop sub n d).reverse
termination_by t _ => (sizeOf t, 0)
decreasing_by
  all_goals simp_wf
  all_goals try
    (have happ : ∀ (xs : List TypeNode) (y : TypeNode),
        sizeOf (xs ++ [y]) = sizeOf xs + 1 + sizeOf y := by
      intro xs y
      induction xs with
      | nil => simp [List.cons.sizeOf_spec]; omega
      | cons x xs ih => simp only [List.cons_append, List.cons.sizeOf_spec, ih]; omega
     have hrev : ∀ (l : List TypeNode), sizeOf l.reverse = sizeOf l := by
      intro l
      induction l with
      | nil => rfl
      | cons a as ih => simp only [List.reverse_cons, happ, ih, List.cons.sizeOf_spec]; omega
     rw [hrev])
  all_goals try simp [Prod.lex_iff]
  all_goals try omega

/-- Embeds `_Cluster._unpack_data_recursive` applied to
`reversed(self._children)`: the argument list here is the reversed child
list; each step unpacks the current (last-declared) member from the low
bits of `data`, recurses on the earlier members with `data` shifted right,
and appends the current member after the recursion so the association list
comes out in declaration order. -/
def unpackClusterRev : List TypeNode → Int → List (String × Value)
  | [], _ => []
  | c :: rest, d =>
      unpackClusterRev rest (d / 2 ^ sizeBits c) ++ [(nodeName c, unpackData c d)]
termination_by l _ => (sizeOf l, 1)
decreasing_by
  all_goals simp_wf
  all_goals try simp [Prod.lex_iff]
  all_goals try omega

/-- Embeds the loop of `_Array.unpack_data` before the final `reverse`:
`results[i] = subtype.unpack_data(data); data >>= subtype.size_in_bits`. -/
def unpackArrayLoop : TypeNode → Nat → Int → List Value
  | _, 0, _ => []
  | sub, n + 1, d => unpackData sub d :: unpackArrayLoop sub n (d / 2 ^ sizeBits sub)
termination_by sub n _ => (sizeOf sub, n + 2)
decreasing_by
  all_goals simp_wf
  all_goals try simp [Prod.lex_iff]
  all_goals try omega

end

mutual

/-- Embeds `pack_data` of every type class, threading the accumulated blob
exactly as the source does (`packed_data << size | field`; the field is
nonnegative and below `2^size`, so `|` is addition).  `none` models a
raised exception (see the header). -/
def packData : TypeNode → Value → Int → Option (Int × List Warning)
  | .bool _, v, acc =>
      match v with
      | .bool b => some (acc * 2 + (if b then 1 else 0), [])
      | _ => none
  | .numeric _ _ bits, v, acc =>
      match v with
      | .int i => some (acc * 2 ^ bits + pyMaskLow bits i, [])
      | _ => none
  | .float _ width, v, acc =>
      match v with
      | .floatBits b =>
          if 0 ≤ b ∧ b < 2 ^ width then some (acc * 2 ^ width + b, []) else none
      | _ => none
  | .strType _, _, acc => some (acc, [])
  | .fxp _ s ov wl iwl, v, acc => packFxp s ov wl iwl v acc
  | .cluster _ children, v, acc =>
      match v with
      | .cluster fields => packCluster children fields acc
      | _ => none
  | .array _ n sub, v, acc =>
      match v with
      | .array elems => packArrayLoop sub n elems acc
      | _ => none
termination_by t _ _ => (sizeOf t, 0)
decreasing_by
  all_goals simp_wf
  all_goals try simp [Prod.lex_iff]
  all_goals try omega

/-- Embeds the loop of `_Cluster.pack_data`: for each child in declaration
order, `packed_data = child.pack_data(data_to_pack[child.name], packed_data)`;
a missing key raises (`none`). -/
def packCluster : List TypeNode → List (String × Value) → Int → Option (Int × List Warning)
  | [], _, acc => some (acc, [])
  | c :: cs, fields, acc =>
      match List.lookup (nodeName c) fields with
      | none => none
      | some v =>
          match packData c v acc with
          | none => none
          | some (acc1, w1) =>
              match packCluster cs fields acc1 with
              | none => none
              | some (acc2, w2) => some (acc2, w1 ++ w2)
termination_by l _ _ => (sizeOf l, 1)
decreasing_by
  all_goals simp_wf
  all_goals try simp [Prod.lex_iff]
  all_goals try omega

/-- Embeds the loop of `_Array.pack_data`: for `i` in `0..size-1`,
`packed_data = subtype.pack_data(data_to_pack[i], packed_data)`; a missing
index raises (`none`); surplus elements are ignored, as in Python. -/
def packArrayLoop : TypeNode → Nat → List Value → Int → Option (Int × List Warning)
  | _, 0, _, acc => some (acc, [])
  | sub, n + 1, elems, acc =>
      match elems with
      | [] => none
      | e :: rest =>
          match packData sub e acc with
          | none => none
          | some (acc1, w1) =>
              match packArrayLoop sub n rest acc1 with
              | none => none
              | some (acc2, w2) => some (acc2, w1 ++ w2)
termination_by sub n _ _ => (sizeOf sub, n + 2)
decreasing_by
  all_goals simp_wf
  all_goals try simp [Prod.lex_iff]
  all_goals try omega

end

/-- Whether an exact rational is an integer multiple of `delta`: the
values an FXP register can represent are exactly the integer multiples of
its delta (`_calculate_delta`'s doc comment).  For the degenerate
`delta = 0` only `0` qualifies. -/
def ratIsMultipleOf (q delta : ℚ) : Bool :=
  if delta = 0 then decide (q = 0) else decide ((q / delta).den = 1)

/-- A rational lies in the representable domain of an FXP geometry: within
the derived minimum and maximum and on the delta quantization grid. -/
def fxpValInRange (signed : Bool) (wl : Nat) (iwl : Int) (q : ℚ) : Bool :=
  decide (fxpMin signed wl iwl ≤ q ∧ q ≤ fxpMax signed wl iwl) &&
    ratIsMultipleOf q (fxpDelta wl iwl)

mutual

/-- The representable domain of a type: the values `v` for which the spec's
round-trip property quantifies `unpack(T, pack(T, v)) = v`.  Booleans and
strings (only the empty string is ever produced), integers within the
signed/unsigned `bits`-bit range, float bit patterns of the width,
FXP numbers respecting min/max and delta quantization (a bare number
without the overflow status, a pair with it), and shape-matching clusters
and arrays. -/
def inDomain : TypeNode → Value → Bool
  | .bool _, v =>
      match v with
      | .bool _ => true
      | _ => false
  | .numeric _ signed bits, v =>
      match v with
      | .int i =>
          if signed then decide (-(2 ^ (bits - 1) : Int) ≤ i ∧ i < 2 ^ (bits - 1))
          else decide (0 ≤ i ∧ i < 2 ^ bits)
      | _ => false
  | .float _ width, v =>
      match v with
      | .floatBits b => decide (0 ≤ b ∧ b < 2 ^ width)
      | _ => false
  | .strType _, v =>
      match v with
      | .str s => decide (s = "")
      | _ => false
  | .fxp _ s ov wl iwl, v =>
      if ov then
        match v with
        | .fxpPair _ q => fxpValInRange s wl iwl q
        | _ => false
      else
        match v with
        | .fxpVal q => fxpValInRange s wl iwl q
        | _ => false
  | .cluster _ children, v =>
      match v with
      | .cluster fields => inDomainFields children fields
      | _ => false
  | .array _ n sub, v =>
      match v with
      | .array elems => decide (elems.length = n) && inDomainElems sub elems
      | _ => false
termination_by t _ => (sizeOf t, 0)
decreasing_by
  all_goals simp_wf
  all_goals try simp [Prod.lex_iff]
  all_goals try omega

/-- Cluster members in declaration order, field names matching the child
names. -/
def inDomainFields : List TypeNode → List (String × Value) → Bool
  | [], [] => true
  | c :: cs, f :: fs => decide (f.1 = nodeName c) && inDomain c f.2 && inDomainFields cs fs
  | _, _ => false
termination_by l _ => (sizeOf l, 1)
decreasing_by
  all_goals simp_wf
  all_goals try simp [Prod.lex_iff]
  all_goals try omega

/-- Every array element in the element type's domain. -/
def inDomainElems : TypeNode → List Value → Bool
  | _, [] => true
  | sub, e :: es => inDomain sub e && inDomainElems sub es
termination_by sub es => (sizeOf sub, es.length + 2)
decreasing_by
  all_goals simp_wf
  all_goals try simp [Prod.lex_iff]
  all_goals try omega

end

mutual

/-- Structural well-formedness guaranteed by the builder and the spec's
data model (§3): numeric widths and FXP word lengths in `[1, 64]`, float
widths 32 or 64, and cluster member names unique among direct siblings
(`ClusterMustContainUniqueNames`). -/
def wfType : TypeNode → Bool
  | .bool _ => true
  | .numeric _ _ bits => decide (1 ≤ bits ∧ bits ≤ 64)
  | .float _ width => decide (width = 32 ∨ width = 64)
  | .strType _ => true
  | .fxp _ _ _ wl _ => decide (1 ≤ wl ∧ wl ≤ 64)
  | .cluster _ children => decide (children.map nodeName).Nodup && wfTypeList children
  | .array _ _ sub => wfType sub
termination_by t => (sizeOf t, 0)
decreasing_by
  all_goals simp_wf
  all_goals try simp [Prod.lex_iff]
  all_goals try omega

/-- All members of a list of children are well-formed. -/
def wfTypeList : List TypeNode → Bool
  | [] => true
  | c :: cs => wfType c && wfTypeList cs
termination_by l => (sizeOf l, 1)
decreasing_by
  all_goals simp_wf
  all_goals try simp [Prod.lex_iff]
  all_goals try omega

end

mutual

/-- Every FXP node of the tree has `iwl - wl ≥ -1074`, so its computed
delta did not underflow to zero (see `fxpDelta`). -/
def fxpDeltaExact : TypeNode → Bool
  | .fxp _ _ _ wl iwl => decide (-1074 ≤ iwl - wl)
  | .cluster _ children => fxpDeltaExactList children
  | .array _ _ sub => fxpDeltaExact sub
  | _ => true
termination_by t => (sizeOf t, 0)
decreasing_by
  all_goals simp_wf
  all_goals try simp [Prod.lex_iff]
  all_goals try omega

/-- `fxpDeltaExact` over a child list. -/
def fxpDeltaExactList : List TypeNode → Bool
  | [] => true
  | c :: cs => fxpDeltaExact c && fxpDeltaExactList cs
termination_by l => (sizeOf l, 1)
decreasing_by
  all_goals simp_wf
  all_goals try simp [Prod.lex_iff]
  all_goals try omega

end

/-- Python `str.lower` on the ASCII characters appearing in type tags. -/
def pyLowerChar (c : Char) : Char :=
  if 'A' ≤ c ∧ c ≤ 'Z' then Char.ofNat (c.toNat + 32) else c

/-- Python `s.lower()` over a tag. -/
def pyLower (s : List Char) : List Char := s.map pyLowerChar

/-- Embeds `type_name.replace("Enum", "")` from `_Numeric.__init__`:
remove the occurrences of `Enum`, scanning left to right without overlap,
exactly as Python `str.replace` does. -/
def stripEnumMarker : List Char → List Char
  | 'E' :: 'n' :: 'u' :: 'm' :: rest => stripEnumMarker rest
  | c :: rest => c :: stripEnumMarker rest
  | [] => []

/-- Whether the first list is a leading block of the second. -/
def beginsWith : List Char → List Char → Bool
  | [], _ => true
  | _ :: _, [] => false
  | a :: as, b :: bs => a == b && beginsWith as bs

/-- Python `needle in hay` on strings: contiguous-subsequence containment. -/
def containsSeq (needle : List Char) : List Char → Bool
  | [] => needle.isEmpty
  | c :: rest => beginsWith needle (c :: rest) || containsSeq needle rest

/-- The `DataType` enumeration of `src/nifpga/nifpga.py`, in declaration
order (the iteration order of `for datatype in DataType`). -/
inductive PyDataType : Type where
  | bool | i8 | u8 | i16 | u16 | i32 | u32 | i64 | u64 | sgl | dbl | fxp | cluster
deriving DecidableEq

/-- `str(datatype)`: the enumeration member's name. -/
def pyDataTypeName : PyDataType → List Char
  | .bool => "Bool".toList
  | .i8 => "I8".toList
  | .u8 => "U8".toList
  | .i16 => "I16".toList
  | .u16 => "U16".toList
  | .i32 => "I32".toList
  | .u32 => "U32".toList
  | .i64 => "I64".toList
  | .u64 => "U64".toList
  | .sgl => "Sgl".toList
  | .dbl => "Dbl".toList
  | .fxp => "Fxp".toList
  | .cluster => "Cluster".toList

/-- Iteration order of `for datatype in DataType`. -/
def pyDataTypeList : List PyDataType :=
  [.bool, .i8, .u8, .i16, .u16, .i32, .u32, .i64, .u64, .sgl, .dbl, .fxp, .cluster]

/-- Build-time failures.  The source raises `UnsupportedTypeError` (one
Python class, distinguished by message) for unsupported tags and for the
FXP schema missing its `Signed` field, `ClusterMustContainUniqueNames` for
duplicate member names, and an uncaught `ValueError` when the numeric
tag's digit suffix does not parse as an int. -/
inductive BuildErr : Type where
  | unsupportedType (msg : String)
  | clusterDupNames (msg : String)
  | valueError
deriving DecidableEq

/-- Message of the `UnsupportedTypeError` raised by `_FXP.__init__` when
the `Signed` field is missing. -/
def fxpMissingSignedMsg : String :=
  "Unsupported FXP type encountered. This bitfile was likely compiled with LabVIEW Communications 2.0. Recompile with LabVIEW Communications 2.1 or later."

/-- Message of the `UnsupportedTypeError` raised by `_parse_type` for CFXP. -/
def cfxpMsg : String :=
  "The FPGA Interface Python API does not yet support Complex Fixed Point"

/-- Abbreviated message of the `UnsupportedTypeError` raised by
`_Numeric.__init__` (the source interpolates the offending tag). -/
def unrecognizedTypeMsg : String := "Unrecognized type encountered"

/-- One decimal digit, else `none`. -/
def digitVal (c : Char) : Option Nat :=
  if '0' ≤ c ∧ c ≤ '9' then some (c.toNat - '0'.toNat) else none

/-- Digit-string accumulator for `pyIntOfDigits`. -/
def parseDigitsLoop : List Char → Nat → Option Nat
  | [], acc => some acc
  | c :: rest, acc =>
      match digitVal c with
      | none => none
      | some v => parseDigitsLoop rest (acc * 10 + v)

/-- Python `int(s)` on a tag's suffix.  Tags carry plain digit suffixes, so
this models the decimal-digits case; `none` models the `ValueError` raised
on anything else (including the empty string). -/
def pyIntOfDigits (s : List Char) : Option Nat :=
  match s with
  | [] => none
  | _ => parseDigitsLoop s 0

/-- Embeds `_Numeric.__init__` on a kind tag: strip `Enum`, find the first
`DataType` member whose lowercased name occurs in the lowercased tag
(`str(datatype).lower() in type_name.lower()`) or fail with
`UnsupportedTypeError`; signedness is `type_name[0].lower() == 'i'` and the
bit width `int(type_name[1:])` of the stripped tag. -/
def parseNumericTag (tag : List Char) : Except BuildErr (PyDataType × Bool × Nat) :=
  let stripped := stripEnumMarker tag
  match pyDataTypeList.find?
      (fun dt => containsSeq (pyLower (pyDataTypeName dt)) (pyLower stripped)) with
  | none => .error (.unsupportedType unrecognizedTypeMsg)
  | some dt =>
    match stripped with
    | [] => .error .valueError
    | c0 :: rest =>
      let signed := pyLowerChar c0 == 'i'
      match pyIntOfDigits rest with
      | none => .error .valueError
      | some bits => .ok (dt, signed, bits)

/-- The declarative schema consumed by `_parse_type`: a leaf with a kind
tag (`Boolean`, `SGL`, `DBL`, `String`, `CFXP` or a numeric code), an FXP
node with its optional `Signed` and `IncludeOverflowStatus` fields, a
cluster with an ordered `TypeList`, or an array with `Size` and one `Type`
child.  A flat `SubType` leaf resolves like a named leaf with an empty
name. -/
inductive Schema : Type where
  | leaf (tag : String) (name : String)
  | fxpNode (name : String) (signed : Option Bool) (includeOverflow : Option Bool)
            (wordLength : Nat) (integerWordLength : Int)
  | clusterNode (name : String) (children : List Schema)
  | arrayNode (name : String) (size : Nat) (elem : Schema)

mutual

/-- Embeds `_parse_type` together with the constructors it dispatches to:
`Boolean`, `SGL`/`DBL`, `String`, `CFXP` (unsupported), FXP (fatal when the
`Signed` field is absent, optional overflow status defaulting to false),
clusters (members built in order with the duplicate-name check of
`_Cluster.__init__`), arrays, and numeric codes via `parseNumericTag`.
Any error propagates: no partial tree is ever returned. -/
def parseType : Schema → Except BuildErr TypeNode
  | .leaf tag name =>
      if tag = "Boolean" then .ok (.bool name)
      else if tag = "SGL" then .ok (.float name 32)
      else if tag = "DBL" then .ok (.float name 64)
      else if tag = "String" then .ok (.strType name)
      else if tag = "CFXP" then .error (.unsupportedType cfxpMsg)
      else
        match parseNumericTag tag.toList with
        | .error e => .error e
        | .ok (_, signed, bits) => .ok (.numeric name signed bits)
  | .fxpNode name signedOpt ovOpt wl iwl =>
      match signedOpt with
      | none => .error (.unsupportedType fxpMissingSignedMsg)
      | some sg => .ok (.fxp name sg (ovOpt.getD false) wl iwl)
  | .clusterNode name children =>
      match parseChildren children [] with
      | .error e => .error e
      | .ok ts => .ok (.cluster name ts)
  | .arrayNode name size elem =>
      match parseType elem with
      | .error e => .error e
      | .ok t => .ok (.array name size t)
termination_by s => (sizeOf s, 0)
decreasing_by
  all_goals simp_wf
  all_goals try simp [Prod.lex_iff]
  all_goals try omega

/-- Embeds the member loop of `_Cluster.__init__`, carrying the set of
names already seen: each child is built, a repeated name raises
`ClusterMustContainUniqueNames`, and the members keep declaration order. -/
def parseChildren : List Schema → List String → Except BuildErr (List TypeNode)
  | [], _ => .ok []
  | c :: cs, seen =>
      match parseType c with
      | .error e => .error e
      | .ok t =>
          if nodeName t ∈ seen then .error (.clusterDupNames (nodeName t))
          else
            match parseChildren cs (nodeName t :: seen) with
            | .error e => .error e
            | .ok ts => .ok (t :: ts)
termination_by l _ => (sizeOf l, 1)
decreasing_by
  all_goals simp_wf
  all_goals try simp [Prod.lex_iff]
  all_goals try omega

end

mutual

/-- The schema contains (anywhere in its tree) an FXP node with no
`Signed` field — the shape produced by a pre-2.1 compiler. -/
def schemaHasUnsignedFxp : Schema → Bool
  | .fxpNode _ none _ _ _ => true
  | .fxpNode _ (some _) _ _ _ => false
  | .clusterNode _ children => schemaListHasUnsignedFxp children
  | .arrayNode _ _ elem => schemaHasUnsignedFxp elem
  | .leaf _ _ => false
termination_by s => (sizeOf s, 0)
decreasing_by
  all_goals simp_wf
  all_goals try simp [Prod.lex_iff]
  all_goals try omega

/-- `schemaHasUnsignedFxp` over a child list. -/
def schemaListHasUnsignedFxp : List Schema → Bool
  | [] => false
  | c :: cs => schemaHasUnsignedFxp c || schemaListHasUnsignedFxp cs
termination_by l => (sizeOf l, 1)
decreasing_by
  all_goals simp_wf
  all_goals try simp [Prod.lex_iff]
  all_goals try omega

end

/-- Embeds `_DataConvertingRegister.__init__`'s transfer length:
`int(ceil(size_in_bits / 32.0))`.  Dividing by `32.0` only shifts the
binary exponent and `ceil` is exact for every width below `2^53`, so the
Nat ceiling division is the faithful embedding for all realizable sizes. -/
def transferLen (sizeInBits : Nat) : Nat := (sizeInBits + 31) / 32

/-- The extraction loop of `_convert_to_u32_array` before its final
`reverse`: append `data & 0xFFFFFFFF`, shift `data` right by 32. -/
def extractWords : Nat → Int → List Int
  | 0, _ => []
  | n + 1, d => pyMaskLow 32 d :: extractWords n (d / 2 ^ 32)

/-- Embeds `_DataConvertingRegister._convert_to_u32_array`: when more than
one u32 word is needed the packed value is first shifted left so its most
significant bit lands at the top of the word array (left-justified); with a
single word no shift happens; then 32-bit words are extracted low-first and
reversed. -/
def convertToU32Array (sizeInBits : Nat) (data : Int) : List Int :=
  let len := transferLen sizeInBits
  let d := if 1 < len then data * 2 ^ (32 * len - sizeInBits) else data
  (extractWords len d).reverse

/-- Embeds `_DataConvertingRegister._combine_array_of_u32_into_one_value`:
fold the words most-significant-first (`combinedData << 32 + word`), then
shift right by the pad amount when more than one word was transferred. -/
def combineArrayOfU32 (sizeInBits : Nat) (words : List Int) : Int :=
  let combined := words.foldl (fun acc w => acc * 2 ^ 32 + w) 0
  if 1 < transferLen sizeInBits then
    combined / 2 ^ (32 * transferLen sizeInBits - sizeInBits)
  else combined

/-- Follows the spec's words (§6), for comparison with the
source-translated `convertToU32Array`: "a packed value of `size_in_bits`
bits is serialized into `ceil(size_in_bits / 32)` unsigned 32-bit words,
left-justified — the most-significant bits occupy the first word, and any
unused bits are zero-padded at the low end of the final word", with no
single-word exception. -/
def u32SerializeSpecWords (sizeInBits : Nat) (data : Int) : List Int :=
  let len := (sizeInBits + 31) / 32
  (extractWords len (data * 2 ^ (32 * len - sizeInBits))).reverse

/-- Follows the spec's offset formulation (§4.2), for comparison with the
source-translated cluster unpack: each member is assigned an offset equal
to the sum of the sizes of the members declared after it and unpacks
`(blob >> offset) & mask(member.size)`, the results keeping declaration
order. -/
def clusterUnpackByOffsets : List TypeNode → Int → List (String × Value)
  | [], _ => []
  | c :: cs, d =>
      (nodeName c, unpackData c (pyMaskLow (sizeBits c) (d / 2 ^ sizeBitsList cs)))
        :: clusterUnpackByOffsets cs d

/-- The numeric kind tags the builder recognizes (`[I|U]<bits>` for the
widths of `DataType`). -/
def recognizedNumericTags : List (List Char) :=
  ["I8".toList, "U8".toList, "I16".toList, "U16".toList,
   "I32".toList, "U32".toList, "I64".toList, "U64".toList]

/-- The enumerated-label marker stripped before numeric parsing. -/
def enumMarker : List Char := "Enum".toList

/-- The two-member U16 cluster of the spec's offset-ordering test vector. -/
def twoU16Cluster : TypeNode :=
  .cluster "c" [.numeric "A" false 16, .numeric "B" false 16]

/-- An unsigned 15-bit FXP register with the overflow bit enabled (the
`FXPRegister15bitWord15bitIntegerOverflow` fixture). -/
def fxpU15Ov : TypeNode := .fxp "fxpU15" false true 15 15

theorem pyMaskLow_nonneg (n : Nat) (d : Int) : 0 ≤ pyMaskLow n d :=
  Int.emod_nonneg d (by positivity)

theorem pyMaskLow_lt (n : Nat) (d : Int) : pyMaskLow n d < 2 ^ n :=
  Int.emod_lt_of_pos d (by positivity)

theorem pyMaskLow_eq_self {n : Nat} {d : Int} (h0 : 0 ≤ d) (h1 : d < 2 ^ n) :
    pyMaskLow n d = d :=
  Int.emod_eq_of_lt h0 h1

theorem pyMaskLow_pyMaskLow {m n : Nat} (h : m ≤ n) (d : Int) :
    pyMaskLow m (pyMaskLow n d) = pyMaskLow m d :=
  Int.emod_emod_of_dvd d (pow_dvd_pow 2 h)

theorem pyMaskLow_add_mul_pow {m j : Nat} (h : m ≤ j) (d k : Int) :
    pyMaskLow m (d + k * 2 ^ j) = pyMaskLow m d := by
  unfold pyMaskLow
  have hj : (2 : Int) ^ j = 2 ^ m * 2 ^ (j - m) := by
    rw [← pow_add]; congr 1; omega
  rw [show d + k * (2 : Int) ^ j = d + 2 ^ m * (k * 2 ^ (j - m)) by rw [hj]; ring]
  exact Int.add_mul_emod_self_left d (2 ^ m) (k * 2 ^ (j - m))

theorem add_mul_pow_ediv {a b : Nat} (h : a ≤ b) (d k : Int) :
    (d + k * 2 ^ b) / 2 ^ a = d / 2 ^ a + k * 2 ^ (b - a) := by
  have hb : (2 : Int) ^ b = 2 ^ (b - a) * 2 ^ a := by
    rw [← pow_add]; congr 1; omega
  rw [show d + k * (2 : Int) ^ b = d + k * 2 ^ (b - a) * 2 ^ a by rw [hb]; ring]
  exact Int.add_mul_ediv_right d _ (by positivity : (0:Int) < 2 ^ a).ne'

theorem ediv_ediv_pow (d : Int) (a b : Nat) : d / 2 ^ a / 2 ^ b = d / 2 ^ (a + b) := by
  have hm : (0 : Int) < 2 ^ a := by positivity
  have hn : (0 : Int) < 2 ^ b := by positivity
  have key : ∀ (x m n : Int), 0 < m → 0 < n → x / m / n = x / (m * n) := by
    intro x m n hm hn
    conv_lhs => rw [show x = m * n * (x / (m * n)) + x % (m * n) from (Int.ediv_add_emod _ _).symm]
    have hr0 : 0 ≤ x % (m * n) := Int.emod_nonneg _ (by positivity)
    have hr1 : x % (m * n) < m * n := Int.emod_lt_of_pos _ (by positivity)
    rw [show m * n * (x / (m * n)) + x % (m * n) = x % (m * n) + m * (n * (x / (m * n))) by ring]
    rw [Int.add_mul_ediv_left _ _ (by omega : m ≠ 0)]
    rw [show x % (m * n) / m + n * (x / (m * n)) = x % (m * n) / m + x / (m * n) * n by ring]
    rw [Int.add_mul_ediv_right _ _ (by omega : n ≠ 0)]
    have hlt : x % (m * n) / m < n := by
      rw [Int.ediv_lt_iff_lt_mul hm]
      calc x % (m * n) < m * n := hr1
        _ = n * m := by ring
    have h2 : 0 ≤ x % (m * n) / m := Int.ediv_nonneg hr0 (le_of_lt hm)
    rw [Int.ediv_eq_zero_of_lt h2 hlt]
    omega
  rw [key d _ _ hm hn, ← pow_add]

theorem pyMaskLow_ediv (m n : Nat) (d : Int) :
    pyMaskLow m (d / 2 ^ n) = pyMaskLow (n + m) d / 2 ^ n := by
  have hd : d = pyMaskLow (n + m) d + d / 2 ^ (n + m) * 2 ^ (n + m) := by
    unfold pyMaskLow
    have h := Int.emod_add_ediv d (2 ^ (n + m))
    linarith [mul_comm ((2 : Int) ^ (n + m)) (d / 2 ^ (n + m))]
  have h0 : 0 ≤ pyMaskLow (n + m) d := pyMaskLow_nonneg _ _
  have h1 : pyMaskLow (n + m) d < 2 ^ (n + m) := pyMaskLow_lt _ _
  have hq0 : 0 ≤ pyMaskLow (n + m) d / 2 ^ n := Int.ediv_nonneg h0 (by positivity)
  have hq1 : pyMaskLow (n + m) d / 2 ^ n < 2 ^ m := by
    rw [Int.ediv_lt_iff_lt_mul (by positivity : (0:Int) < 2 ^ n)]
    calc pyMaskLow (n + m) d < 2 ^ (n + m) := h1
      _ = 2 ^ m * 2 ^ n := by rw [← pow_add]; congr 1; omega
  conv_lhs => rw [hd]
  rw [add_mul_pow_ediv (by omega) _ _]
  rw [show (n + m) - n = m from by omega]
  rw [pyMaskLow_add_mul_pow (le_refl m)]
  exact pyMaskLow_eq_self hq0 hq1

theorem pyBitTest_eq_ge {b : Nat} {d : Int} (h0 : 0 ≤ d) (h1 : d < 2 ^ (b + 1)) :
    pyBitTest d b = decide ((2 : Int) ^ b ≤ d) := by
  have hs : (2 : Int) ^ (b + 1) = 2 ^ b * 2 := pow_succ 2 b
  unfold pyBitTest
  by_cases h : (2 : Int) ^ b ≤ d
  · have hq : d / 2 ^ b = 1 := by
      have hrw : d = (d - 2 ^ b) + 1 * 2 ^ b := by ring
      rw [hrw, Int.add_mul_ediv_right _ _ (by positivity : (0:Int) < 2 ^ b).ne']
      rw [Int.ediv_eq_zero_of_lt (by omega) (by omega)]
      norm_num
    simp [hq, h]
  · have hq : d / 2 ^ b = 0 := Int.ediv_eq_zero_of_lt h0 (by omega)
    simp [hq, h]

theorem pow_eq_two_mul_pred {wl : Nat} (h : 1 ≤ wl) :
    (2 : Int) ^ wl = 2 * 2 ^ (wl - 1) := by
  conv_lhs => rw [show wl = (wl - 1) + 1 from by omega]
  rw [pow_succ]; ring

theorem pyIntegerTwosComp_low {wl : Nat} {d : Int} (h : 1 ≤ wl)
    (h0 : 0 ≤ d) (h1 : d < 2 ^ (wl - 1)) : pyIntegerTwosComp wl d = d := by
  have hp : (2 : Int) ^ ((wl - 1) + 1) = 2 * 2 ^ (wl - 1) := by rw [pow_succ]; ring
  unfold pyIntegerTwosComp
  rw [pyBitTest_eq_ge h0 (by omega)]
  simp [show ¬ (2 : Int) ^ (wl - 1) ≤ d from by omega]

theorem pyIntegerTwosComp_high {wl : Nat} {d : Int} (h : 1 ≤ wl)
    (h0 : 2 ^ (wl - 1) ≤ d) (h1 : d < 2 ^ wl) : pyIntegerTwosComp wl d = d - 2 ^ wl := by
  have hp := pow_eq_two_mul_pred h
  have hpos : (0 : Int) < 2 ^ (wl - 1) := by positivity
  unfold pyIntegerTwosComp
  rw [pyBitTest_eq_ge (by omega) (by rw [show (wl - 1) + 1 = wl from by omega]; exact h1)]
  rw [if_pos (by simpa using h0)]
  unfold pyXorLowOnes
  have hmod : d % 2 ^ wl = d := Int.emod_eq_of_lt (by omega) h1
  rw [hmod]; ring

theorem sizeBitsList_cons (c : TypeNode) (cs : List TypeNode) :
    sizeBitsList (c :: cs) = sizeBits c + sizeBitsList cs := by
  simp [sizeBitsList]

theorem sizeBitsList_append (xs ys : List TypeNode) :
    sizeBitsList (xs ++ ys) = sizeBitsList xs + sizeBitsList ys := by
  induction xs with
  | nil => simp [sizeBitsList]
  | cons c rest ih => simp only [List.cons_append, sizeBitsList_cons, ih]; omega

theorem sizeBitsList_reverse (cs : List TypeNode) :
    sizeBitsList cs.reverse = sizeBitsList cs := by
  induction cs with
  | nil => rfl
  | cons c rest ih =>
    rw [List.reverse_cons, sizeBitsList_append, ih, sizeBitsList_cons]
    simp [sizeBitsList]
    omega

theorem unpackClusterRev_congr (l : List TypeNode)
    (hP : ∀ c ∈ l, ∀ d1 d2 : Int,
      pyMaskLow (sizeBits c) d1 = pyMaskLow (sizeBits c) d2 →
      unpackData c d1 = unpackData c d2) :
    ∀ d1 d2 : Int, pyMaskLow (sizeBitsList l) d1 = pyMaskLow (sizeBitsList l) d2 →
      unpackClusterRev l d1 = unpackClusterRev l d2 := by
  induction l with
  | nil => intro d1 d2 _; simp [unpackClusterRev]
  | cons c rest ih =>
    intro d1 d2 h
    rw [sizeBitsList_cons] at h
    simp only [unpackClusterRev]
    have h1 : unpackClusterRev rest (d1 / 2 ^ sizeBits c)
        = unpackClusterRev rest (d2 / 2 ^ sizeBits c) := by
      apply ih (fun c' hc' => hP c' (List.mem_cons_of_mem _ hc'))
      rw [pyMaskLow_ediv, pyMaskLow_ediv, h]
    have h2 : unpackData c d1 = unpackData c d2 := by
      apply hP c (List.mem_cons_self _ _)
      have hcg := congrArg (pyMaskLow (sizeBits c)) h
      rwa [pyMaskLow_pyMaskLow (by omega), pyMaskLow_pyMaskLow (by omega)] at hcg
    rw [h1, h2]

theorem unpackArrayLoop_congr (sub : TypeNode)
    (hP : ∀ d1 d2 : Int,
      pyMaskLow (sizeBits sub) d1 = pyMaskLow (sizeBits sub) d2 →
      unpackData sub d1 = unpackData sub d2) :
    ∀ (n : Nat) (d1 d2 : Int),
      pyMaskLow (n * sizeBits sub) d1 = pyMaskLow (n * sizeBits sub) d2 →
      unpackArrayLoop sub n d1 = unpackArrayLoop sub n d2 := by
  intro n
  induction n with
  | zero => intro d1 d2 _; simp [unpackArrayLoop]
  | succ n ih =>
    intro d1 d2 h
    rw [show (n + 1) * sizeBits sub = sizeBits sub + n * sizeBits sub from by ring] at h
    simp only [unpackArrayLoop]
    have h1 : unpackData sub d1 = unpackData sub d2 := by
      apply hP
      have hcg := congrArg (pyMaskLow (sizeBits sub)) h
      rwa [pyMaskLow_pyMaskLow (by omega), pyMaskLow_pyMaskLow (by omega)] at hcg
    have h2 : unpackArrayLoop sub n (d1 / 2 ^ sizeBits sub)
        = unpackArrayLoop sub n (d2 / 2 ^ sizeBits sub) := by
      apply ih
      rw [pyMaskLow_ediv, pyMaskLow_ediv, h]
    rw [h1, h2]

theorem unpackData_congr : ∀ (t : TypeNode) (d1 d2 : Int),
    pyMaskLow (sizeBits t) d1 = pyMaskLow (sizeBits t) d2 →
    unpackData t d1 = unpackData t d2 := by
  suffices h : ∀ (N : Nat) (t : TypeNode), sizeOf t ≤ N → ∀ d1 d2 : Int,
      pyMaskLow (sizeBits t) d1 = pyMaskLow (sizeBits t) d2 →
      unpackData t d1 = unpackData t d2 by
    exact fun t => h (sizeOf t) t le_rfl
  intro N
  induction N with
  | zero =>
    intro t ht
    exact absurd ht (by cases t <;> simp <;> omega)
  | succ N ih =>
    intro t ht d1 d2 h
    cases t with
    | bool nm =>
      simp only [sizeBits] at h
      simp only [unpackData, h]
    | numeric nm sg bits =>
      simp only [sizeBits] at h
      simp only [unpackData, unpackNumericSigned, pyIntegerTwosComp, pyXorLowOnes]
      cases sg with
      | true => simp only [if_pos rfl, h]
      | false => simp only [Bool.false_eq_true, if_false, h]
    | float nm width =>
      simp only [sizeBits] at h
      simp only [unpackData, h]
    | strType nm => simp [unpackData]
    | fxp nm sg ov wl iwl =>
      simp only [sizeBits] at h
      simp only [unpackData, unpackFxp, h]
    | cluster nm cs =>
      simp only [sizeBits] at h
      simp only [unpackData]
      have hsz : sizeOf cs ≤ N := by
        have := ht; simp at this; omega
      have hrev : unpackClusterRev cs.reverse d1 = unpackClusterRev cs.reverse d2 := by
        apply unpackClusterRev_congr
        · intro c hc
          apply ih c
          have h1 : c ∈ cs := List.mem_reverse.mp hc
          have h2 := List.sizeOf_lt_of_mem h1
          omega
        · rwa [sizeBitsList_reverse]
      rw [hrev]
    | array nm n sub =>
      simp only [sizeBits] at h
      simp only [unpackData]
      have hsub : sizeOf sub ≤ N := by
        have := ht; simp at this; omega
      have hloop : unpackArrayLoop sub n d1 = unpackArrayLoop sub n d2 := by
        apply unpackArrayLoop_congr sub (ih sub hsub) n
        rwa [Nat.mul_comm n (sizeBits sub)]
      rw [hloop]

theorem unpackClusterRev_append (xs ys : List TypeNode) :
    ∀ d : Int, unpackClusterRev (xs ++ ys) d
      = unpackClusterRev ys (d / 2 ^ sizeBitsList xs) ++ unpackClusterRev xs d := by
  induction xs with
  | nil =>
    intro d
    simp [unpackClusterRev, sizeBitsList]
  | cons c rest ih =>
    intro d
    simp only [List.cons_append, unpackClusterRev]
    rw [ih, ediv_ediv_pow]
    rw [show sizeBits c + sizeBitsList rest = sizeBitsList (c :: rest) from
      (sizeBitsList_cons c rest).symm]
    rw [List.append_assoc]

theorem cluster_unpack_offsets_eq (cs : List TypeNode) :
    ∀ d : Int, unpackClusterRev cs.reverse d = clusterUnpackByOffsets cs d := by
  induction cs with
  | nil => intro d; simp [unpackClusterRev, clusterUnpackByOffsets]
  | cons c rest ih =>
    intro d
    rw [List.reverse_cons, unpackClusterRev_append, sizeBitsList_reverse, ih]
    simp only [unpackClusterRev, clusterUnpackByOffsets]
    have hmask : unpackData c (d / 2 ^ sizeBitsList rest)
        = unpackData c (pyMaskLow (sizeBits c) (d / 2 ^ sizeBitsList rest)) := by
      apply unpackData_congr
      rw [pyMaskLow_pyMaskLow (le_refl _)]
    rw [← hmask]
    simp

theorem unpackData_cluster_offsets (nm : String) (cs : List TypeNode) (d : Int) :
    unpackData (.cluster nm cs) d = .cluster (clusterUnpackByOffsets cs d) := by
  simp only [unpackData]
  rw [cluster_unpack_offsets_eq]

theorem unpackNumericSigned_reinterp {bits : Nat} (h : 1 ≤ bits) (d : Int) :
    unpackNumericSigned bits d
      = if (2 : Int) ^ (bits - 1) ≤ pyMaskLow bits d then pyMaskLow bits d - 2 ^ bits
        else pyMaskLow bits d := by
  unfold unpackNumericSigned
  by_cases hb : (2 : Int) ^ (bits - 1) ≤ pyMaskLow bits d
  · rw [pyIntegerTwosComp_high h hb (pyMaskLow_lt _ _), if_pos hb]
  · push_neg at hb
    rw [pyIntegerTwosComp_low h (pyMaskLow_nonneg _ _) hb, if_neg (not_le.mpr hb)]

theorem wfTypeList_mem {cs : List TypeNode} (h : wfTypeList cs = true) :
    ∀ c ∈ cs, wfType c = true := by
  induction cs with
  | nil => intro c hc; cases hc
  | cons a rest ih =>
    intro c hc
    have h2 : wfType a = true ∧ wfTypeList rest = true := by
      have := h
      simp [wfTypeList] at this
      exact this
    rcases List.mem_cons.mp hc with hc1 | hc1
    · exact hc1 ▸ h2.1
    · exact ih h2.2 c hc1

theorem fxpDeltaExactList_mem {cs : List TypeNode} (h : fxpDeltaExactList cs = true) :
    ∀ c ∈ cs, fxpDeltaExact c = true := by
  induction cs with
  | nil => intro c hc; cases hc
  | cons a rest ih =>
    intro c hc
    have h2 : fxpDeltaExact a = true ∧ fxpDeltaExactList rest = true := by
      have := h
      simp [fxpDeltaExactList] at this
      exact this
    rcases List.mem_cons.mp hc with hc1 | hc1
    · exact hc1 ▸ h2.1
    · exact ih h2.2 c hc1

theorem extractWords_length : ∀ (n : Nat) (d : Int), (extractWords n d).length = n := by
  intro n
  induction n with
  | zero => intro d; simp [extractWords]
  | succ n ih => intro d; simp [extractWords, ih]

theorem extractWords_bounds : ∀ (n : Nat) (d : Int) (w : Int),
    w ∈ extractWords n d → 0 ≤ w ∧ w < 2 ^ 32 := by
  intro n
  induction n with
  | zero => intro d w hw; simp [extractWords] at hw
  | succ n ih =>
    intro d w hw
    simp only [extractWords, List.mem_cons] at hw
    rcases hw with hw | hw
    · exact hw ▸ ⟨pyMaskLow_nonneg _ _, pyMaskLow_lt _ _⟩
    · exact ih _ w hw

theorem foldl_extractWords_reverse : ∀ (n : Nat) (d : Int), 0 ≤ d → d < 2 ^ (32 * n) →
    ((extractWords n d).reverse).foldl (fun acc w => acc * 2 ^ 32 + w) 0 = d := by
  intro n
  induction n with
  | zero =>
    intro d h0 h1
    simp [extractWords]
    omega
  | succ n ih =>
    intro d h0 h1
    have hq0 : 0 ≤ d / 2 ^ 32 := Int.ediv_nonneg h0 (by positivity)
    have hq1 : d / 2 ^ 32 < 2 ^ (32 * n) := by
      rw [Int.ediv_lt_iff_lt_mul (by positivity : (0:Int) < 2 ^ 32)]
      calc d < 2 ^ (32 * (n + 1)) := h1
        _ = 2 ^ (32 * n) * 2 ^ 32 := by rw [← pow_add] <;> (congr 1 <;> ring)
    simp only [extractWords, List.reverse_cons, List.foldl_append, List.foldl_cons,
      List.foldl_nil]
    rw [ih _ hq0 hq1]
    unfold pyMaskLow
    have := Int.emod_add_ediv d (2 ^ 32)
    linarith [mul_comm ((2 : Int) ^ 32) (d / 2 ^ 32)]

theorem transferLen_bounds {size : Nat} (h : 1 ≤ size) :
    1 ≤ transferLen size ∧ size ≤ 32 * transferLen size := by
  unfold transferLen
  omega

theorem convertToU32Array_eq (size : Nat) (data : Int) :
    convertToU32Array size data =
      (extractWords (transferLen size)
        (if 1 < transferLen size then data * 2 ^ (32 * transferLen size - size)
         else data)).reverse := rfl

theorem u32SerializeSpecWords_eq (size : Nat) (data : Int) :
    u32SerializeSpecWords size data =
      (extractWords (transferLen size)
        (data * 2 ^ (32 * transferLen size - size))).reverse := rfl

theorem combineArrayOfU32_eq (size : Nat) (ws : List Int) :
    combineArrayOfU32 size ws =
      if 1 < transferLen size then
        (ws.foldl (fun acc w => acc * 2 ^ 32 + w) 0) / 2 ^ (32 * transferLen size - size)
      else ws.foldl (fun acc w => acc * 2 ^ 32 + w) 0 := by
  unfold combineArrayOfU32
  by_cases h : 1 < transferLen size
  · rw [if_pos h]
  · rw [if_neg h]

theorem convertToU32Array_framing {size : Nat} {data : Int}
    (hsz : 1 ≤ size) (h0 : 0 ≤ data) (h1 : data < 2 ^ size) :
    (convertToU32Array size data).length = transferLen size ∧
    (∀ w ∈ convertToU32Array size data, 0 ≤ w ∧ w < 2 ^ 32) ∧
    (1 < transferLen size →
      convertToU32Array size data = u32SerializeSpecWords size data) ∧
    (transferLen size = 1 → convertToU32Array size data = [data]) ∧
    combineArrayOfU32 size (convertToU32Array size data) = data := by
  obtain ⟨hlen1, hlen2⟩ := transferLen_bounds hsz
  refine ⟨?_, ?_, ?_, ?_, ?_⟩
  · rw [convertToU32Array_eq, List.length_reverse, extractWords_length]
  · intro w hw
    rw [convertToU32Array_eq, List.mem_reverse] at hw
    exact extractWords_bounds _ _ w hw
  · intro hgt
    rw [convertToU32Array_eq, u32SerializeSpecWords_eq, if_pos hgt]
  · intro heq
    rw [convertToU32Array_eq, if_neg (by omega), heq]
    have hle : size ≤ 32 := by unfold transferLen at heq; omega
    have h1' : data < 2 ^ 32 :=
      lt_of_lt_of_le h1 (pow_le_pow_right₀ (by norm_num) hle)
    simp only [extractWords]
    rw [pyMaskLow_eq_self h0 h1']
    simp
  · rw [convertToU32Array_eq, combineArrayOfU32_eq]
    by_cases hgt : 1 < transferLen size
    · rw [if_pos hgt, if_pos hgt]
      have hd0 : 0 ≤ data * 2 ^ (32 * transferLen size - size) := by positivity
      have hd1 : data * 2 ^ (32 * transferLen size - size)
          < 2 ^ (32 * transferLen size) := by
        calc data * 2 ^ (32 * transferLen size - size)
            < 2 ^ size * 2 ^ (32 * transferLen size - size) := by
              apply mul_lt_mul_of_pos_right h1 (by positivity)
          _ = 2 ^ (32 * transferLen size) := by rw [← pow_add]; congr 1; omega
      rw [foldl_extractWords_reverse _ _ hd0 hd1]
      exact Int.mul_ediv_cancel data
        (by positivity : (0:Int) < 2 ^ (32 * transferLen size - size)).ne'
    · rw [if_neg hgt]
      have heq : transferLen size = 1 := by omega
      rw [heq]
      have hle : size ≤ 32 := by unfold transferLen at heq; omega
      have h1' : data < 2 ^ 32 :=
        lt_of_lt_of_le h1 (pow_le_pow_right₀ (by norm_num) hle)
      simp only [extractWords]
      rw [if_neg (by norm_num : ¬ (1:Nat) < 1)]
      rw [pyMaskLow_eq_self h0 h1']
      simp

theorem parseType_leaf_numeric (tag : String) (nm : String)
    (h1 : tag ≠ "Boolean") (h2 : tag ≠ "SGL") (h3 : tag ≠ "DBL") (h4 : tag ≠ "String")
    (h5 : tag ≠ "CFXP") :
    parseType (.leaf tag nm) =
      match parseNumericTag tag.toList with
      | .error e => .error e
      | .ok (_, signed, bits) => .ok (.numeric nm signed bits) := by
  simp only [parseType]
  rw [if_neg h1, if_neg h2, if_neg h3, if_neg h4, if_neg h5]

theorem parseType_fxp_missing_signed (nm : String) (ovOpt : Option Bool)
    (wl : Nat) (iwl : Int) :
    parseType (.fxpNode nm none ovOpt wl iwl)
      = .error (.unsupportedType fxpMissingSignedMsg) := by
  simp only [parseType]

theorem parseChildren_no_tree (cs : List Schema)
    (hP : ∀ c ∈ cs, schemaHasUnsignedFxp c = true → ∀ t, parseType c ≠ .ok t) :
    ∀ seen : List String, schemaListHasUnsignedFxp cs = true →
      ∀ ts, parseChildren cs seen ≠ .ok ts := by
  induction cs with
  | nil =>
    intro seen h ts
    simp [schemaListHasUnsignedFxp] at h
  | cons c rest ih =>
    intro seen h ts hok
    have hor : schemaHasUnsignedFxp c = true ∨ schemaListHasUnsignedFxp rest = true := by
      have := h
      simp [schemaListHasUnsignedFxp] at this
      tauto
    cases hpc : parseType c with
    | error e =>
      simp only [parseChildren, hpc] at hok
      exact absurd hok (by simp)
    | ok t =>
      rcases hor with hc | hrestcase
      · exact hP c (by simp) hc t hpc
      · simp only [parseChildren, hpc] at hok
        by_cases hdup : nodeName t ∈ seen
        · rw [if_pos hdup] at hok
          simp at hok
        · rw [if_neg hdup] at hok
          cases hrest : parseChildren rest (nodeName t :: seen) with
          | error e => rw [hrest] at hok; simp at hok
          | ok ts2 =>
            exact ih (fun c2 hc2 => hP c2 (List.mem_cons_of_mem _ hc2))
              (nodeName t :: seen) hrestcase ts2 hrest

theorem parseType_no_tree_of_unsigned_fxp :
    ∀ s : Schema, schemaHasUnsignedFxp s = true → ∀ t, parseType s ≠ .ok t := by
  suffices h : ∀ (N : Nat) (s : Schema), sizeOf s ≤ N →
      schemaHasUnsignedFxp s = true → ∀ t, parseType s ≠ .ok t from
    fun s => h (sizeOf s) s le_rfl
  intro N
  induction N with
  | zero =>
    intro s hs
    exact absurd hs (by cases s <;> simp <;> omega)
  | succ N ih =>
    intro s hs hbad t hok
    cases s with
    | leaf tag nm => simp [schemaHasUnsignedFxp] at hbad
    | fxpNode nm sg ovOpt wl iwl =>
      cases sg with
      | none =>
        rw [parseType_fxp_missing_signed] at hok
        simp at hok
      | some b => simp [schemaHasUnsignedFxp] at hbad
    | clusterNode nm children =>
      have hlist : schemaListHasUnsignedFxp children = true := by
        have := hbad
        simp [schemaHasUnsignedFxp] at this
        exact this
      cases hpc : parseChildren children [] with
      | error e =>
        simp only [parseType, hpc] at hok
        exact absurd hok (by simp)
      | ok ts =>
        refine parseChildren_no_tree children ?_ [] hlist ts hpc
        intro c hc hcbad t2
        apply ih c ?_ hcbad t2
        have h1 := List.sizeOf_lt_of_mem hc
        have h2 : sizeOf (Schema.clusterNode nm children)
            = 1 + sizeOf nm + sizeOf children := by simp
        omega
    | arrayNode nm size elem =>
      have helem : schemaHasUnsignedFxp elem = true := by
        have := hbad
        simp [schemaHasUnsignedFxp] at this
        exact this
      cases hpe : parseType elem with
      | error e =>
        simp only [parseType, hpe] at hok
        exact absurd hok (by simp)
      | ok t2 =>
        refine ih elem ?_ helem t2 hpe
        have h2 : sizeOf (Schema.arrayNode nm size elem)
            = 1 + sizeOf nm + sizeOf size + sizeOf elem := by simp
        omega

end NiFpga

namespace NiFpga

/-- C4: each cluster member is read at the bit offset given by the summed
widths of the members declared after it — the first declared member
occupies the most significant bits — and the association list keeps
declaration order; concretely, a two-U16 cluster A-then-B unpacks
0x00010002 to A = 1, B = 2. -/
theorem C4_cluster_msb_first_offsets :
    (∀ (nm : String) (cs : List TypeNode) (d : Int),
      unpackData (.cluster nm cs) d = .cluster (clusterUnpackByOffsets cs d)) ∧
    unpackData twoU16Cluster 65538 = .cluster [("A", .int 1), ("B", .int 2)] := by
  refine ⟨unpackData_cluster_offsets, ?_⟩
  rw [show twoU16Cluster = .cluster "c" [.numeric "A" false 16, .numeric "B" false 16]
    from rfl]
  rw [unpackData_cluster_offsets]
  simp only [clusterUnpackByOffsets, sizeBits, sizeBitsList, nodeName]
  norm_num [unpackData, pyMaskLow]

/-- C6: with the overflow status enabled, packing a bare value defaults
the overflow flag to false — it packs exactly as the pair (false, value)
would — but the defaulting is silent: the eaten `TypeError` emits nothing,
so an in-range bare pack returns an empty warning list (the claim's "AND
emits a warning" is wrong; see the counterexample). -/
theorem C6_bare_value_defaults_false :
    (∀ (nm : String) (s : Bool) (wl : Nat) (iwl : Int) (q : ℚ) (acc : Int),
      packData (.fxp nm s true wl iwl) (.fxpVal q) acc
        = packData (.fxp nm s true wl iwl) (.fxpPair false q) acc) ∧
    packData fxpU15Ov (.fxpVal 3) 0 = some (3, []) := by
  constructor
  · intro nm s wl iwl q acc
    simp only [packData]
    rfl
  · simp only [fxpU15Ov, packData]
    norm_num [packFxp, validateFxpInput, fxpMin, fxpMax, fxpDelta,
      convertValueToFxp, ratTrunc, fxpSizeBits]

/-- C6 counterexample: the defaulted bare pack of an in-range value emits
no warning whatsoever — the warning side channel is empty. -/
theorem C6_silent_default_counterexample :
    packData fxpU15Ov (.fxpVal 3) 0 = some (3, []) ∧
      ∀ w : Warning, w ∉ ([] : List Warning) := by
  refine ⟨?_, fun w => List.not_mem_nil w⟩
  simp only [fxpU15Ov, packData]
  norm_num [packFxp, validateFxpInput, fxpMin, fxpMax, fxpDelta,
    convertValueToFxp, ratTrunc, fxpSizeBits]

/-- C7: an FXP schema node without a Signed field makes the builder raise
`UnsupportedTypeError` with the fatal recompile message, and a schema
containing such a node anywhere yields no type tree at all — the failure
propagates and nothing partial or guessed is returned. -/
theorem C7_missing_signed_is_fatal :
    (∀ (nm : String) (ovOpt : Option Bool) (wl : Nat) (iwl : Int),
      parseType (.fxpNode nm none ovOpt wl iwl)
        = .error (.unsupportedType fxpMissingSignedMsg)) ∧
    ∀ s : Schema, schemaHasUnsignedFxp s = true →
      ∀ t : TypeNode, parseType s ≠ .ok t :=
  ⟨parseType_fxp_missing_signed, parseType_no_tree_of_unsigned_fxp⟩

/-- C8: a packed `size`-bit value travels as exactly ceil(size/32) words,
each a valid u32, and deserialization inverts the framing; but the data is
left-justified (most significant bits in the first word, zero padding at
the low end) only when more than one word is needed — with a single word
the value is kept right-justified, contrary to the claim's "including the
case where one word suffices" (see the counterexample). -/
theorem C8_u32_word_framing (size : Nat) (data : Int)
    (hsz : 1 ≤ size) (h0 : 0 ≤ data) (h1 : data < 2 ^ size) :
    (convertToU32Array size data).length = transferLen size ∧
    (∀ w ∈ convertToU32Array size data, 0 ≤ w ∧ w < 2 ^ 32) ∧
    (1 < transferLen size →
      convertToU32Array size data = u32SerializeSpecWords size data) ∧
    (transferLen size = 1 → convertToU32Array size data = [data]) ∧
    combineArrayOfU32 size (convertToU32Array size data) = data :=
  convertToU32Array_framing hsz h0 h1

/-- C8 witness: a 33-bit value of 5 spans two words, is left-justified and
round-trips through the u32 framing. -/
theorem C8_u32_word_framing_witness :
    (convertToU32Array 33 5).length = transferLen 33 ∧
    (∀ w ∈ convertToU32Array 33 5, 0 ≤ w ∧ w < 2 ^ 32) ∧
    (1 < transferLen 33 → convertToU32Array 33 5 = u32SerializeSpecWords 33 5) ∧
    (transferLen 33 = 1 → convertToU32Array 33 5 = [5]) ∧
    combineArrayOfU32 33 (convertToU32Array 33 5) = 5 :=
  C8_u32_word_framing 33 5 (by norm_num) (by norm_num) (by norm_num)

/-- C8 counterexample: a 16-bit value fits one word and is sent
right-justified — `1` travels as `[1]`, not the `[65536]` that uniform
left-justification would require. -/
theorem C8_single_word_counterexample :
    convertToU32Array 16 1 = [1] ∧ u32SerializeSpecWords 16 1 = [65536] ∧
      convertToU32Array 16 1 ≠ u32SerializeSpecWords 16 1 := by
  refine ⟨by decide, by decide, by decide⟩

/-- C9: the Enum marker is stripped before numeric tag parsing, so an
enumerated tag parses (and hence packs and unpacks) identically to its
plain tag for every recognized numeric tag; EnumU8 builds the unsigned
8-bit numeric, and an unrecognizable tag fails with the
`UnsupportedTypeError`. -/
theorem C9_enum_tag_strips_to_plain :
    (∀ tag ∈ recognizedNumericTags,
        parseNumericTag (enumMarker ++ tag) = parseNumericTag tag) ∧
    (∀ nm : String, ∀ tag ∈ recognizedNumericTags,
        parseType (.leaf (String.mk (enumMarker ++ tag)) nm)
          = parseType (.leaf (String.mk tag) nm)) ∧
    (∀ nm : String, parseType (.leaf "EnumU8" nm) = .ok (.numeric nm false 8)) ∧
    parseNumericTag "XYZ".toList = .error (.unsupportedType unrecognizedTypeMsg) := by
  refine ⟨?_, ?_, ?_, rfl⟩
  · intro tag htag
    fin_cases htag <;> rfl
  · intro nm tag htag
    fin_cases htag <;>
      · rw [parseType_leaf_numeric _ _ (by decide) (by decide) (by decide)
              (by decide) (by decide),
            parseType_leaf_numeric _ _ (by decide) (by decide) (by decide)
              (by decide) (by decide)]
        rfl
  · intro nm
    rw [parseType_leaf_numeric _ _ (by decide) (by decide) (by decide)
          (by decide) (by decide)]
    rfl

/-- C10: numeric pack keeps only the low `bits` bits of the value — no
clamping, no warning — and unpacking the packed field reinterprets that
residue in two's complement when signed (subtract `2^bits` when its sign
bit is set), so out-of-range values come back changed rather than
round-tripping. -/
theorem C10_numeric_pack_truncates (nm : String) (s : Bool) (bits : Nat)
    (v acc : Int) (h : 1 ≤ bits) :
    packData (.numeric nm s bits) (.int v) acc
      = some (acc * 2 ^ bits + v % 2 ^ bits, []) ∧
    unpackData (.numeric nm s bits) (v % 2 ^ bits)
      = .int (if s = true ∧ (2 : Int) ^ (bits - 1) ≤ v % 2 ^ bits
          then v % 2 ^ bits - 2 ^ bits else v % 2 ^ bits) := by
  have hmask : pyMaskLow bits (v % 2 ^ bits) = v % 2 ^ bits :=
    pyMaskLow_eq_self (pyMaskLow_nonneg bits v) (pyMaskLow_lt bits v)
  constructor
  · simp only [packData]
    rfl
  · simp only [unpackData]
    cases s with
    | false =>
      rw [hmask]
      simp
    | true =>
      rw [unpackNumericSigned_reinterp h, hmask]
      simp

/-- C10 witness: packing 1000 into a signed 8-bit numeric keeps
1000 mod 256 = 232, and unpacking gives its two's-complement
reinterpretation 232 − 256 = −24. -/
theorem C10_numeric_pack_truncates_witness :
    (packData (.numeric "n" true 8) (.int 1000) 0
        = some (0 * 2 ^ 8 + 1000 % 2 ^ 8, []) ∧
      unpackData (.numeric "n" true 8) (1000 % 2 ^ 8)
        = .int (if true = true ∧ (2 : Int) ^ (8 - 1) ≤ 1000 % 2 ^ 8
            then 1000 % 2 ^ 8 - 2 ^ 8 else 1000 % 2 ^ 8)) :=
  C10_numeric_pack_truncates "n" true 8 1000 0 (by norm_num)

end NiFpga
